import Mathlib

/-!
Verification development for the GitHub-releases MCP server's release
resolution engine (`src/utils.ts` and the tool handlers in `src/main.ts`).

The TypeScript core is shallowly embedded:
* `extractVersion` (regex cascade + `semver.clean`) becomes a total
  function `extractVersion : String → Option SemV`, where `SemV` is the
  canonical (major, minor, patch, prerelease) tuple produced by
  `semver.clean` (build metadata is dropped by `clean` and ignored by all
  comparisons, so it is not carried).
* `semver.compare/eq/gte/lte` become `semverCompare : SemV → SemV → Ordering`
  following node-semver's `compareMain`/`comparePre`/`compareIdentifiers`.
* `extractPackageName` becomes `extractPackageName` over the anchored
  regex `^(@[^@/]+\/[^@/]+|[^@/]+)@`, first on the tag, then on the name.
* `fetchAllReleases` becomes a fuel-indexed loop over an abstract page
  collaborator `PageFn`, additionally returning the list of page numbers
  requested (its request trace), so that claims about which pages are
  fetched, and in which order, are statable.
* `fetchReleaseByVersion` / `fetchReleasesBetweenVersions` /
  the `github_releases_list` handler become `…Core` functions on a fetched
  collection, plus `…Run` functions that perform the fetch first, exactly
  as the source does (the source awaits `fetchAllReleases` before
  validating the version parameters).
Numbers are `Nat` with node-semver's explicit `MAX_SAFE_INTEGER` bounds.
-/

/-- `Number.MAX_SAFE_INTEGER = 2^53 - 1`, the bound node-semver puts on
numeric components. -/
def maxSafe : Nat := 2 ^ 53 - 1

/-- Whitespace removed by JavaScript's `String.prototype.trim` (space,
tab, LF, CR, VT, FF, NBSP, the line separators, BOM), by code point. -/
def isJsWs (c : Char) : Bool :=
  c.toNat = 32 || c.toNat = 9 || c.toNat = 10 || c.toNat = 13 ||
  c.toNat = 11 || c.toNat = 12 || c.toNat = 0xa0 ||
  c.toNat = 0x2028 || c.toNat = 0x2029 || c.toNat = 0xfeff

/-- `\d` of the JavaScript regexes: exactly `[0-9]`, by code point. -/
def isDig (c : Char) : Bool := 48 ≤ c.toNat && c.toNat ≤ 57

/-- `s.trim()` on a character list. -/
def trimChars (l : List Char) : List Char :=
  ((l.dropWhile isJsWs).reverse.dropWhile isJsWs).reverse

/-- Characters allowed in semver prerelease/build identifiers: `[0-9A-Za-z-]`. -/
def isIdChar (c : Char) : Bool := c.isAlphanum || c = '-'

/-- Decimal value of a digit string (most significant digit first). -/
def decVal (l : List Char) : Nat := l.foldl (fun a c => 10 * a + (c.toNat - 48)) 0

/-- Split a character list at the first occurrence of `ch`: returns the
part before it and, when `ch` occurs, the part after it. -/
def splitFirst (ch : Char) : List Char → List Char × Option (List Char)
  | [] => ([], none)
  | c :: t =>
    if c = ch then ([], some t)
    else
      let r := splitFirst ch t
      (c :: r.1, r.2)

/-- Split a character list on `'.'` (like `String.prototype.split('.')`);
always returns at least one (possibly empty) group. -/
def splitDots : List Char → List (List Char)
  | [] => [[]]
  | c :: t =>
    if c = '.' then [] :: splitDots t
    else
      match splitDots t with
      | [] => [[c]]
      | g :: gs => (c :: g) :: gs

/-- A prerelease identifier as stored by node-semver: numeric identifiers
strictly below `MAX_SAFE_INTEGER` are kept as numbers, everything else
(including huge all-digit identifiers) stays a string. -/
inductive PreId where
  | num : Nat → PreId
  | str : String → PreId
deriving DecidableEq

/-- The canonical version produced by `semver.clean`: `major.minor.patch`
plus the prerelease identifiers. (`clean` drops build metadata and all
comparisons ignore it, so it is not carried.) -/
structure SemV where
  major : Nat
  minor : Nat
  patch : Nat
  pre : List PreId
deriving DecidableEq

/-- node-semver `NUMERICIDENTIFIER` (`0|[1-9]\d*`) with the
`MAX_SAFE_INTEGER` bound checked by the `SemVer` constructor: parses a
main-version component. -/
def parseNumIdent (l : List Char) : Option Nat :=
  if l.isEmpty then none
  else if !l.all isDig then none
  else if !(l = ['0'] || l.head? != some '0') then none
  else if decVal l > maxSafe then none
  else some (decVal l)

/-- Parse one prerelease identifier (`PRERELEASEIDENTIFIER` of the FULL
regex, then the constructor's numeric coercion with its strict
`< MAX_SAFE_INTEGER` test). -/
def parsePreId (l : List Char) : Option PreId :=
  if l.isEmpty then none
  else if l.all isDig then
    if l = ['0'] || l.head? != some '0' then
      some (if decVal l < maxSafe then .num (decVal l) else .str (String.mk l))
    else none
  else if l.all isIdChar then some (.str (String.mk l)) else none

/-- `BUILDIDENTIFIER`: a nonempty run of `[0-9A-Za-z-]`. -/
def isBuildId (l : List Char) : Bool := !l.isEmpty && l.all isIdChar

/-- The `new SemVer(version)` constructor on an already `clean`-preprocessed
string: length limit, trim, the FULL regex (optional leading `v`, dotted
numeric triple, optional `-prerelease`, optional `+build`), and the
component bound checks. Returns the canonical parsed version or `none`. -/
def parseStrict (s : List Char) : Option SemV :=
  if s.length > 256 then none
  else
    let t0 := trimChars s
    let t := if t0.head? = some 'v' then t0.tail else t0
    let bsplit := splitFirst '+' t
    let buildOk := match bsplit.2 with
      | none => true
      | some b => (splitDots b).all isBuildId
    if !buildOk then none
    else
      let psplit := splitFirst '-' bsplit.1
      match splitDots psplit.1 with
      | [m1, m2, m3] =>
        match parseNumIdent m1, parseNumIdent m2, parseNumIdent m3 with
        | some a, some b, some c =>
          match psplit.2 with
          | none => some ⟨a, b, c, []⟩
          | some p =>
            match (splitDots p).mapM parsePreId with
            | some ids => some ⟨a, b, c, ids⟩
            | none => none
        | _, _, _ => none
      | _ => none

/-- `semver.clean`: trim, strip the leading `[=v]+` run, then parse
strictly. -/
def semverClean (s : String) : Option SemV :=
  parseStrict ((trimChars s.data).dropWhile (fun c => c = '=' || c = 'v'))

/-- The capture of `tagName.match(/@(\d+\.\d+\.\d+)$/)`.  The match, if
any, is at the last `'@'` of the string (a successful match leaves only
digits and dots after the `'@'`, so no later `'@'` can exist, and any
earlier `'@'` is followed by that `'@'`, which the digit/dot body cannot
absorb). -/
def matchTrailingAt (s : List Char) : Option (List Char) :=
  let revTail := s.reverse.takeWhile (fun c => c ≠ '@')
  if revTail.length = s.length then none
  else
    let t := revTail.reverse
    if (match splitDots t with
        | [a, b, c] =>
          (!a.isEmpty && a.all isDig) &&
          (!b.isEmpty && b.all isDig) &&
          (!c.isEmpty && c.all isDig)
        | _ => false) then some t else none

/-- The triple capture of `\d+\.\d+\.\d+` anchored at the head of `s`:
each `\d+` is the maximal digit run (backtracking cannot shorten it, as
the following `'.'` is not a digit). -/
def leadTriple (s : List Char) : Option (List Char) :=
  let d1 := s.takeWhile isDig
  let r1 := s.dropWhile isDig
  if d1.isEmpty then none
  else if r1.head? = some '.' then
    let r2 := r1.tail
    let d2 := r2.takeWhile isDig
    let r3 := r2.dropWhile isDig
    if d2.isEmpty then none
    else if r3.head? = some '.' then
      let r4 := r3.tail
      let d3 := r4.takeWhile isDig
      if d3.isEmpty then none else some (d1 ++ '.' :: d2 ++ '.' :: d3)
    else none
  else none

/-- The capture of `tagName.match(/^v?(\d+\.\d+\.\d+)/)`: an optional
leading `'v'` (consumed when present: the alternative of not consuming it
fails immediately since `'v'` is not a digit), then the leading triple. -/
def matchLeadingTriple (s : List Char) : Option (List Char) :=
  if s.head? = some 'v' then leadTriple s.tail else leadTriple s

/-- `extractVersion` from `src/utils.ts`:
`tagName.match(/@(\d+\.\d+\.\d+)$/) || tagName.match(/^v?(\d+\.\d+\.\d+)/)`,
then `semver.clean` of the capture, else `semver.clean` of the whole tag. -/
def extractVersion (tagName : String) : Option SemV :=
  match matchTrailingAt tagName.data with
  | some cap => semverClean (String.mk cap)
  | none =>
    match matchLeadingTriple tagName.data with
    | some cap => semverClean (String.mk cap)
    | none => semverClean tagName

/-- Lexicographic comparison of character lists by code point (JavaScript
`<`/`>` on the ASCII strings that occur in semver identifiers). -/
def lexCompare : List Char → List Char → Ordering
  | [], [] => .eq
  | [], _ :: _ => .lt
  | _ :: _, [] => .gt
  | a :: as, b :: bs => (compare a.toNat b.toNat).then (lexCompare as bs)

/-- `/^[0-9]+$/` — the numeric test of `compareIdentifiers`. -/
def isNumericId (l : List Char) : Bool := !l.isEmpty && l.all isDig

/-- node-semver `compareIdentifiers` on stored prerelease identifiers:
numbers and all-digit strings compare numerically, numeric sorts below
alphanumeric, two non-numeric strings compare lexically. -/
def idCompare : PreId → PreId → Ordering
  | .num a, .num b => compare a b
  | .num a, .str s => if isNumericId s.data then compare a (decVal s.data) else .lt
  | .str s, .num b => if isNumericId s.data then compare (decVal s.data) b else .gt
  | .str a, .str b =>
    match isNumericId a.data, isNumericId b.data with
    | true, true => compare (decVal a.data) (decVal b.data)
    | true, false => .lt
    | false, true => .gt
    | false, false => lexCompare a.data b.data

/-- The elementwise loop of `comparePre` once both sides are known to be
nonempty: identifier by identifier, a missing identifier sorts first. -/
def preTailCompare : List PreId → List PreId → Ordering
  | [], [] => .eq
  | [], _ :: _ => .lt
  | _ :: _, [] => .gt
  | a :: as, b :: bs => (idCompare a b).then (preTailCompare as bs)

/-- `comparePre`: any prerelease sorts before no prerelease; two
prereleases compare elementwise. -/
def preCompare (a b : List PreId) : Ordering :=
  match a, b with
  | [], [] => .eq
  | [], _ :: _ => .gt
  | _ :: _, [] => .lt
  | _ :: _, _ :: _ => preTailCompare a b

/-- `semver.compare`: major, then minor, then patch, then prerelease. -/
def semverCompare (a b : SemV) : Ordering :=
  (compare a.major b.major).then
    ((compare a.minor b.minor).then
      ((compare a.patch b.patch).then (preCompare a.pre b.pre)))

/-- The `GitHubRelease` record of `src/utils.ts`. -/
structure GitHubRelease where
  id : Int
  tag_name : String
  name : String
  published_at : String
  body : Option String
  prerelease : Bool
deriving DecidableEq

/-- `[^@/]` — a character allowed inside a package-name segment. -/
def isPkgChar (c : Char) : Bool := c ≠ '@' && c ≠ '/'

/-- The capture of `s.match(/^(@[^@\/]+\/[^@\/]+|[^@\/]+)@/)`.  On an
`'@'`-headed string only the scoped alternative can apply (the bare
alternative cannot start with `'@'`); each `[^@/]+` is a maximal run, and
the required delimiter after it cannot be recovered by backtracking. -/
def matchPkgPat (s : List Char) : Option (List Char) :=
  match s with
  | '@' :: rest =>
    let a := rest.takeWhile isPkgChar
    if a.isEmpty then none
    else
      match rest.dropWhile isPkgChar with
      | '/' :: r2 =>
        let b := r2.takeWhile isPkgChar
        if b.isEmpty then none
        else
          match r2.dropWhile isPkgChar with
          | '@' :: _ => some ('@' :: a ++ '/' :: b)
          | _ => none
      | _ => none
  | _ =>
    let a := s.takeWhile isPkgChar
    if a.isEmpty then none
    else
      match s.dropWhile isPkgChar with
      | '@' :: _ => some a
      | _ => none

/-- `extractPackageName` from `src/utils.ts`: pattern on the tag first,
then on the display name, else the `"default"` sentinel. -/
def extractPackageName (release : GitHubRelease) : String :=
  match matchPkgPat release.tag_name.data with
  | some p => String.mk p
  | none =>
    match matchPkgPat release.name.data with
    | some p => String.mk p
    | none => "default"

/-- `!packageName || extractPackageName(release) === packageName` — note
that the empty string is falsy in JavaScript, so `""` disables the
filter. -/
def pkgMatches : Option String → GitHubRelease → Bool
  | none, _ => true
  | some p, r => p == "" || extractPackageName r == p

/-- Comparison used by the sort in `fetchReleasesBetweenVersions`; the
`none` cases model the `|| ''` fallback, which is unreachable after the
filter (every surviving release has a resolvable version; the fallback
would make `semver.compare` throw) and is placed below every version. -/
def optCompare : Option SemV → Option SemV → Ordering
  | none, none => .eq
  | none, some _ => .lt
  | some _, none => .gt
  | some a, some b => semverCompare a b

/-- The sort comparator of `fetchReleasesBetweenVersions`, as a relation:
`semver.compare(vA, vB) <= 0`. -/
def releaseLE (a b : GitHubRelease) : Prop :=
  optCompare (extractVersion a.tag_name) (extractVersion b.tag_name) ≠ .gt

instance : DecidableRel releaseLE := fun a b => by
  unfold releaseLE; infer_instance

/-- The `releases.find(...)` callback of `fetchReleaseByVersion`: the
release's tag resolves, compares equal to the target by semver
precedence, and the package filter (if any) matches. -/
def byVersionPred (target : SemV) (packageName : Option String)
    (r : GitHubRelease) : Bool :=
  (match extractVersion r.tag_name with
   | some v => semverCompare v target == .eq
   | none => false)
  && pkgMatches packageName r

/-- `fetchReleaseByVersion` after the collection has been fetched:
validate the target, then `releases.find(...)`. -/
def fetchReleaseByVersionCore (releases : List GitHubRelease) (version : String)
    (packageName : Option String) : Except String (Option GitHubRelease) :=
  match extractVersion version with
  | none => .error ("Invalid version format: " ++ version)
  | some target => .ok (releases.find? (byVersionPred target packageName))

/-- The `releases.filter(...)` callback of `fetchReleasesBetweenVersions`:
the release's tag resolves, `semver.gte(v, lo) && semver.lte(v, hi)`
holds, and the package filter (if any) matches. -/
def betweenPred (lo hi : SemV) (packageName : Option String)
    (r : GitHubRelease) : Bool :=
  (match extractVersion r.tag_name with
   | some v => !(semverCompare v lo == .lt) && !(semverCompare v hi == .gt)
   | none => false)
  && pkgMatches packageName r

/-- `fetchReleasesBetweenVersions` after the collection has been fetched:
validate both bounds (naming `fromVersion` when it is the unresolvable
one, else `toVersion`), filter to the inclusive range and the package,
then stable-sort ascending by version (JavaScript `Array.prototype.sort`
is stable; insertion sort by the same comparator computes the same,
unique, stable sorted permutation). -/
def fetchReleasesBetweenVersionsCore (releases : List GitHubRelease)
    (fromVersion toVersion : String) (packageName : Option String) :
    Except String (List GitHubRelease) :=
  match extractVersion fromVersion, extractVersion toVersion with
  | none, _ => .error ("Invalid version format: " ++ fromVersion)
  | some _, none => .error ("Invalid version format: " ++ toVersion)
  | some lo, some hi =>
    .ok (List.insertionSort releaseLE (releases.filter (betweenPred lo hi packageName)))

/-- The `github_releases_list` handler body after the fetch: package
filter when a truthy package is given, prerelease filter unless
`includePreReleases`, then `slice(0, limit)` when `limit` is truthy and
positive (so `0`, negative, and absent all mean "no limit"). -/
def listReleasesCore (releases : List GitHubRelease) (packageName : Option String)
    (includePreReleases : Bool) (limit : Option Int) : List GitHubRelease :=
  let r1 := match packageName with
    | some p => if p == "" then releases else releases.filter (fun r => extractPackageName r == p)
    | none => releases
  let r2 := if includePreReleases then r1 else r1.filter (fun r => !r.prerelease)
  match limit with
  | some l => if 0 < l then r2.take l.toNat else r2
  | none => r2

/-- The remote release-source collaborator:
`listReleasesPage(repository, pageNumber, pageSize)`. -/
abbrev PageFn := Nat → Except String (List GitHubRelease)

/-- `perPage = 100`, the maximum the GitHub API accepts. -/
def perPage : Nat := 100

/-- The `while (true)` pagination loop of `fetchAllReleases`, indexed by
fuel (the loop itself has no bound; every theorem supplies enough fuel).
Returns the pages requested, in request order, together with `none` when
fuel ran out, or the loop's result: an empty page stops without
appending, a short page stops after appending, a full page continues with
the next page number, and a page failure aborts with the single wrapped
error. -/
def fetchAllReleasesGo (pageFn : PageFn) :
    Nat → Nat → List GitHubRelease → List Nat × Option (Except String (List GitHubRelease))
  | 0, _, _ => ([], none)
  | fuel + 1, page, acc =>
    match pageFn page with
    | .error msg => ([page], some (.error ("Failed to fetch releases from GitHub: " ++ msg)))
    | .ok releases =>
      if releases.length = 0 then ([page], some (.ok acc))
      else if releases.length < perPage then ([page], some (.ok (acc ++ releases)))
      else
        let rest := fetchAllReleasesGo pageFn fuel (page + 1) (acc ++ releases)
        (page :: rest.1, rest.2)

/-- `fetchAllReleases`: start at page 1 with an empty accumulator. -/
def fetchAllReleasesRun (pageFn : PageFn) (fuel : Nat) :
    List Nat × Option (Except String (List GitHubRelease)) :=
  fetchAllReleasesGo pageFn fuel 1 []

/-- `fetchReleaseByVersion` end to end, in source order: the collection
is fetched first and only then is the target version validated. -/
def fetchReleaseByVersionRun (pageFn : PageFn) (fuel : Nat) (version : String)
    (packageName : Option String) : List Nat × Option (Except String (Option GitHubRelease)) :=
  match fetchAllReleasesRun pageFn fuel with
  | (tr, none) => (tr, none)
  | (tr, some (.error e)) => (tr, some (.error e))
  | (tr, some (.ok releases)) =>
    (tr, some (fetchReleaseByVersionCore releases version packageName))

/-- `fetchReleasesBetweenVersions` end to end, in source order: fetch
first, then validate the bounds. -/
def fetchReleasesBetweenVersionsRun (pageFn : PageFn) (fuel : Nat)
    (fromVersion toVersion : String) (packageName : Option String) :
    List Nat × Option (Except String (List GitHubRelease)) :=
  match fetchAllReleasesRun pageFn fuel with
  | (tr, none) => (tr, none)
  | (tr, some (.error e)) => (tr, some (.error e))
  | (tr, some (.ok releases)) =>
    (tr, some (fetchReleasesBetweenVersionsCore releases fromVersion toVersion packageName))

/-! ### Lawfulness of the comparators

node-semver's comparison is a total preorder; these lemmas establish the
`Batteries.TransCmp` laws for each layer of `semverCompare`, which the
sortedness and stability results about the range query rely on. -/

section ComparatorLaws

open Batteries

/-- `Batteries.TransCmp.le_trans` with the comparator passed positionally. -/
theorem cmpLeTrans {α : Type} (cmp : α → α → Ordering) [TransCmp cmp] {x y z : α}
    (h1 : cmp x y ≠ .gt) (h2 : cmp y z ≠ .gt) : cmp x z ≠ .gt :=
  TransCmp.le_trans h1 h2

/-- `Batteries.TransCmp.cmp_congr_left` with the comparator passed positionally. -/
theorem cmpCongrLeft {α : Type} (cmp : α → α → Ordering) [TransCmp cmp] {x y z : α}
    (h : cmp x y = .eq) : cmp x z = cmp y z :=
  TransCmp.cmp_congr_left h

/-- `Batteries.OrientedCmp.cmp_eq_gt` with the comparator passed positionally. -/
theorem cmpEqGtIff {α : Type} (cmp : α → α → Ordering) [OrientedCmp cmp] {x y : α} :
    cmp x y = .gt ↔ cmp y x = .lt :=
  OrientedCmp.cmp_eq_gt

/-- `Batteries.OrientedCmp.cmp_ne_gt` with the comparator passed positionally. -/
theorem cmpNeGtIff {α : Type} (cmp : α → α → Ordering) [OrientedCmp cmp] {x y : α} :
    cmp x y ≠ .gt ↔ cmp y x ≠ .lt :=
  OrientedCmp.cmp_ne_gt

/-- `Batteries.OrientedCmp.cmp_refl` with the comparator passed positionally. -/
theorem cmpRefl {α : Type} (cmp : α → α → Ordering) [OrientedCmp cmp] (x : α) :
    cmp x x = .eq :=
  OrientedCmp.cmp_refl

/-- `Batteries.OrientedCmp.symm` with the comparator passed positionally. -/
theorem cmpSymm {α : Type} (cmp : α → α → Ordering) [OrientedCmp cmp] (x y : α) :
    (cmp x y).swap = cmp y x :=
  OrientedCmp.symm x y

/-- Pulling a lawful comparator back along a function keeps it lawful. -/
theorem transCmp_comap {β : Type} {cmp : β → β → Ordering} [h : TransCmp cmp]
    {α : Type} (f : α → β) : TransCmp (fun a b => cmp (f a) (f b)) where
  symm a b := h.symm (f a) (f b)
  le_trans h1 h2 := h.le_trans h1 h2

theorem lexCompare_swap : ∀ (x y : List Char), (lexCompare x y).swap = lexCompare y x
  | [], [] => rfl
  | [], _ :: _ => rfl
  | _ :: _, [] => rfl
  | a :: as, b :: bs => by
    simp only [lexCompare, Ordering.swap_then, Nat.compare_swap, lexCompare_swap as bs]

instance : OrientedCmp lexCompare where
  symm x y := lexCompare_swap x y

theorem lexCompare_le_trans :
    ∀ {x y z : List Char}, lexCompare x y ≠ .gt → lexCompare y z ≠ .gt →
      lexCompare x z ≠ .gt := by
  intro x
  induction x with
  | nil =>
    intro y z _ _
    cases z with
    | nil => simp [lexCompare]
    | cons c cs => simp [lexCompare]
  | cons a as ih =>
    intro y z h1 h2
    cases y with
    | nil => exact absurd rfl h1
    | cons b bs =>
      cases z with
      | nil => exact absurd rfl h2
      | cons c cs =>
        simp only [lexCompare, ne_eq, Ordering.then_eq_gt, not_or, not_and] at h1 h2 ⊢
        refine ⟨cmpLeTrans (compare : Nat → Nat → Ordering) h1.1 h2.1,
          fun e1 e2 => ?_⟩
        match ab : compare a.toNat b.toNat with
        | .gt => exact h1.1 ab
        | .eq =>
          exact ih (h1.2 ab)
            (h2.2 (cmpCongrLeft (compare : Nat → Nat → Ordering) ab ▸ e1))
            e2
        | .lt =>
          exact h2.1 <| (cmpEqGtIff (compare : Nat → Nat → Ordering)).2
            (cmpCongrLeft (compare : Nat → Nat → Ordering) e1 ▸ ab)

instance : TransCmp lexCompare where
  le_trans := lexCompare_le_trans

/-- The numeric/alphanumeric classification of `compareIdentifiers`, as a
sort key: numerics (stored numbers and all-digit strings) in class 0
ordered by value, other strings in class 1 ordered lexically. -/
def idKey : PreId → Nat × Nat × List Char
  | .num a => (0, a, [])
  | .str s => if isNumericId s.data then (0, decVal s.data, []) else (1, 0, s.data)

/-- Lexicographic comparison of `idKey`s. -/
def keyCmp (x y : Nat × Nat × List Char) : Ordering :=
  (compare x.1 y.1).then ((compare x.2.1 y.2.1).then (lexCompare x.2.2 y.2.2))

instance : TransCmp (fun x y : Nat × Nat × List Char => lexCompare x.2.2 y.2.2) :=
  transCmp_comap (fun x => x.2.2)

instance : TransCmp keyCmp :=
  inferInstanceAs (TransCmp (compareLex (compareOn (fun x : Nat × Nat × List Char => x.1))
    (compareLex (compareOn (fun x : Nat × Nat × List Char => x.2.1))
      (fun x y : Nat × Nat × List Char => lexCompare x.2.2 y.2.2))))

theorem ordEqThen (o : Ordering) : Ordering.eq.then o = o := rfl

theorem ordLtThen (o : Ordering) : Ordering.lt.then o = .lt := rfl

theorem ordGtThen (o : Ordering) : Ordering.gt.then o = .gt := rfl

theorem ordThenEq (o : Ordering) : o.then .eq = o := by cases o <;> rfl

theorem idCompare_eq_keyCmp : ∀ a b : PreId, idCompare a b = keyCmp (idKey a) (idKey b) := by
  have e00 : compare (0 : Nat) 0 = .eq := by decide
  have e01 : compare (0 : Nat) 1 = .lt := by decide
  have e10 : compare (1 : Nat) 0 = .gt := by decide
  have e11 : compare (1 : Nat) 1 = .eq := by decide
  have lexnil : lexCompare [] [] = .eq := rfl
  intro a b
  cases a with
  | num a =>
    cases b with
    | num b => simp [idCompare, idKey, keyCmp, e00, ordEqThen, ordThenEq, lexnil]
    | str s =>
      by_cases h : isNumericId s.data = true <;>
        simp [idCompare, idKey, keyCmp, h, e00, e01, ordEqThen, ordLtThen, ordThenEq, lexnil]
  | str s =>
    cases b with
    | num b =>
      by_cases h : isNumericId s.data = true <;>
        simp [idCompare, idKey, keyCmp, h, e00, e10, ordEqThen, ordGtThen, ordThenEq, lexnil]
    | str t =>
      by_cases h1 : isNumericId s.data = true <;> by_cases h2 : isNumericId t.data = true <;>
        simp [idCompare, idKey, keyCmp, h1, h2, e00, e01, e10, e11, ordEqThen, ordLtThen,
          ordGtThen, ordThenEq, lexnil]

instance : TransCmp idCompare := by
  have h : idCompare = fun a b => keyCmp (idKey a) (idKey b) := by
    funext a b; exact idCompare_eq_keyCmp a b
  rw [h]
  exact transCmp_comap idKey

theorem preTailCompare_swap :
    ∀ (x y : List PreId), (preTailCompare x y).swap = preTailCompare y x
  | [], [] => rfl
  | [], _ :: _ => rfl
  | _ :: _, [] => rfl
  | a :: as, b :: bs => by
    simp only [preTailCompare, Ordering.swap_then, cmpSymm idCompare,
      preTailCompare_swap as bs]

instance : OrientedCmp preTailCompare where
  symm x y := preTailCompare_swap x y

theorem preTailCompare_le_trans :
    ∀ {x y z : List PreId}, preTailCompare x y ≠ .gt → preTailCompare y z ≠ .gt →
      preTailCompare x z ≠ .gt := by
  intro x
  induction x with
  | nil =>
    intro y z _ _
    cases z with
    | nil => simp [preTailCompare]
    | cons c cs => simp [preTailCompare]
  | cons a as ih =>
    intro y z h1 h2
    cases y with
    | nil => exact absurd rfl h1
    | cons b bs =>
      cases z with
      | nil => exact absurd rfl h2
      | cons c cs =>
        simp only [preTailCompare, ne_eq, Ordering.then_eq_gt, not_or, not_and] at h1 h2 ⊢
        refine ⟨cmpLeTrans idCompare h1.1 h2.1, fun e1 e2 => ?_⟩
        match ab : idCompare a b with
        | .gt => exact h1.1 ab
        | .eq =>
          exact ih (h1.2 ab) (h2.2 (cmpCongrLeft idCompare ab ▸ e1)) e2
        | .lt =>
          exact h2.1 <| (cmpEqGtIff idCompare).2
            (cmpCongrLeft idCompare e1 ▸ ab)

instance : TransCmp preTailCompare where
  le_trans := preTailCompare_le_trans

theorem preCompare_swap : ∀ (x y : List PreId), (preCompare x y).swap = preCompare y x
  | [], [] => rfl
  | [], _ :: _ => rfl
  | _ :: _, [] => rfl
  | a :: as, b :: bs => preTailCompare_swap (a :: as) (b :: bs)

instance : OrientedCmp preCompare where
  symm x y := preCompare_swap x y

theorem preCompare_le_trans :
    ∀ {x y z : List PreId}, preCompare x y ≠ .gt → preCompare y z ≠ .gt →
      preCompare x z ≠ .gt := by
  intro x y z h1 h2
  match x, y, z with
  | [], [], [] => simp [preCompare]
  | [], [], _ :: _ => exact absurd rfl h2
  | [], _ :: _, _ => exact absurd rfl h1
  | _ :: _, _, [] =>
    cases y with
    | nil => simp [preCompare]
    | cons b bs => simp [preCompare]
  | _ :: _, [], _ :: _ => exact absurd rfl h2
  | a :: as, b :: bs, c :: cs =>
    exact preTailCompare_le_trans
      (show preTailCompare (a :: as) (b :: bs) ≠ .gt from h1)
      (show preTailCompare (b :: bs) (c :: cs) ≠ .gt from h2)

instance : TransCmp preCompare where
  le_trans := preCompare_le_trans

instance : TransCmp (fun a b : SemV => preCompare a.pre b.pre) :=
  transCmp_comap SemV.pre

instance : TransCmp semverCompare :=
  inferInstanceAs (TransCmp (compareLex (compareOn SemV.major)
    (compareLex (compareOn SemV.minor)
      (compareLex (compareOn SemV.patch) (fun a b => preCompare a.pre b.pre)))))

theorem optCompare_swap : ∀ (x y : Option SemV), (optCompare x y).swap = optCompare y x
  | none, none => rfl
  | none, some _ => rfl
  | some _, none => rfl
  | some a, some b => cmpSymm semverCompare a b

instance : OrientedCmp optCompare where
  symm x y := optCompare_swap x y

theorem optCompare_le_trans :
    ∀ {x y z : Option SemV}, optCompare x y ≠ .gt → optCompare y z ≠ .gt →
      optCompare x z ≠ .gt := by
  intro x y z h1 h2
  match x, y, z with
  | none, _, none => simp [optCompare]
  | none, none, some _ => simp [optCompare]
  | none, some _, some _ => simp [optCompare]
  | some a, none, _ => exact absurd rfl h1
  | some a, some b, none => exact absurd rfl h2
  | some a, some b, some c => exact cmpLeTrans semverCompare h1 h2

instance : TransCmp optCompare where
  le_trans := optCompare_le_trans

/-- The release comparator of the range-query sort, as an `Ordering`. -/
def releaseCmp (a b : GitHubRelease) : Ordering :=
  optCompare (extractVersion a.tag_name) (extractVersion b.tag_name)

instance : TransCmp releaseCmp :=
  transCmp_comap (fun r : GitHubRelease => extractVersion r.tag_name)

theorem releaseLE_iff (a b : GitHubRelease) : releaseLE a b ↔ releaseCmp a b ≠ .gt :=
  Iff.rfl

instance : IsTotal GitHubRelease releaseLE where
  total a b := by
    rcases h : releaseCmp a b with _ | _ | _
    · exact Or.inl (by rw [releaseLE_iff, h]; exact nofun)
    · exact Or.inl (by rw [releaseLE_iff, h]; exact nofun)
    · refine Or.inr ?_
      rw [releaseLE_iff]
      have := (cmpEqGtIff releaseCmp).1 h
      rw [this]
      exact nofun

instance : IsTrans GitHubRelease releaseLE where
  trans _ _ _ h1 h2 := cmpLeTrans releaseCmp h1 h2

theorem releaseCmp_refl (a : GitHubRelease) : releaseCmp a a = .eq :=
  cmpRefl releaseCmp a

end ComparatorLaws

/-! ### List and character machinery -/

section ListMachinery

theorem takeWhile_append_all {p : Char → Bool} {l1 : List Char} (l2 : List Char)
    (h : ∀ c ∈ l1, p c = true) : (l1 ++ l2).takeWhile p = l1 ++ l2.takeWhile p := by
  induction l1 with
  | nil => simp
  | cons a t ih =>
    have ha : p a = true := h a (by simp)
    simp [List.takeWhile_cons, ha, ih (fun c hc => h c (by simp [hc]))]

theorem dropWhile_append_all {p : Char → Bool} {l1 : List Char} (l2 : List Char)
    (h : ∀ c ∈ l1, p c = true) : (l1 ++ l2).dropWhile p = l2.dropWhile p := by
  induction l1 with
  | nil => simp
  | cons a t ih =>
    have ha : p a = true := h a (by simp)
    simp [List.dropWhile_cons, ha, ih (fun c hc => h c (by simp [hc]))]

theorem takeWhile_head_false {p : Char → Bool} {l : List Char}
    (h : ∀ c, l.head? = some c → p c = false) : l.takeWhile p = [] := by
  cases l with
  | nil => rfl
  | cons a t => simp [List.takeWhile_cons, h a rfl]

theorem dropWhile_head_false {p : Char → Bool} {l : List Char}
    (h : ∀ c, l.head? = some c → p c = false) : l.dropWhile p = l := by
  cases l with
  | nil => rfl
  | cons a t => simp [List.dropWhile_cons, h a rfl]

theorem takeWhile_all_eq {p : Char → Bool} {l : List Char}
    (h : ∀ c ∈ l, p c = true) : l.takeWhile p = l := by
  have := takeWhile_append_all [] h
  simpa using this

theorem dropWhile_all_false {p : Char → Bool} {l : List Char}
    (h : ∀ c ∈ l, p c = false) : l.dropWhile p = l := by
  cases l with
  | nil => rfl
  | cons a t => simp [List.dropWhile_cons, h a (by simp)]

theorem trimChars_of_no_ws {l : List Char} (h : ∀ c ∈ l, isJsWs c = false) :
    trimChars l = l := by
  unfold trimChars
  rw [dropWhile_all_false h, dropWhile_all_false (fun c hc => h c (List.mem_reverse.1 hc)),
    List.reverse_reverse]

theorem splitFirst_of_forall_ne {ch : Char} {l : List Char} (h : ∀ c ∈ l, c ≠ ch) :
    splitFirst ch l = (l, none) := by
  induction l with
  | nil => rfl
  | cons a t ih =>
    simp [splitFirst, h a (by simp), ih (fun c hc => h c (by simp [hc]))]

theorem splitDots_no_dot {l : List Char} (h : ∀ c ∈ l, c ≠ '.') : splitDots l = [l] := by
  induction l with
  | nil => rfl
  | cons a t ih =>
    simp [splitDots, h a (by simp), ih (fun c hc => h c (by simp [hc]))]

theorem splitDots_append {l1 rest : List Char} (h : ∀ c ∈ l1, c ≠ '.') :
    splitDots (l1 ++ '.' :: rest) = l1 :: splitDots rest := by
  induction l1 with
  | nil => simp [splitDots]
  | cons a t ih =>
    have ha : a ≠ '.' := h a (by simp)
    have iht := ih (fun c hc => h c (by simp [hc]))
    show splitDots (a :: (t ++ '.' :: rest)) = (a :: t) :: splitDots rest
    rw [splitDots, if_neg ha, iht]

theorem isDig_bounds {c : Char} (h : isDig c = true) : 48 ≤ c.toNat ∧ c.toNat ≤ 57 := by
  simpa [isDig] using h

theorem isDig_ne {c d : Char} (h : isDig c = true) (hd : isDig d = false) : c ≠ d :=
  fun e => by rw [e, hd] at h; exact Bool.noConfusion h

theorem isJsWs_false_of_isDig {c : Char} (h : isDig c = true) : isJsWs c = false := by
  obtain ⟨h1, h2⟩ := isDig_bounds h
  simp only [isJsWs, Bool.or_eq_false_iff, decide_eq_false_iff_not]
  omega

theorem char_toNat_inj {c d : Char} (h : c.toNat = d.toNat) : c = d :=
  Char.ext (UInt32.ext h)

theorem decVal_foldl_ge (l : List Char) :
    ∀ a : Nat, a * 10 ^ l.length ≤ l.foldl (fun a c => 10 * a + (c.toNat - 48)) a := by
  induction l with
  | nil => intro a; simp
  | cons c t ih =>
    intro a
    calc a * 10 ^ (c :: t).length = (10 * a) * 10 ^ t.length := by
          simp [List.length_cons, Nat.pow_succ]; ring
      _ ≤ (10 * a + (c.toNat - 48)) * 10 ^ t.length :=
          Nat.mul_le_mul_right _ (Nat.le_add_right _ _)
      _ ≤ (c :: t).foldl (fun a c => 10 * a + (c.toNat - 48)) a := by
          simpa [List.foldl_cons] using ih (10 * a + (c.toNat - 48))

theorem decVal_lower {c : Char} {t : List Char} (hc : isDig c = true) (h0 : c ≠ '0') :
    10 ^ t.length ≤ decVal (c :: t) := by
  have hb := isDig_bounds hc
  have h48 : c.toNat ≠ 48 := fun e => h0 (char_toNat_inj (by rw [e]; rfl))
  have h1 : 1 ≤ c.toNat - 48 := by omega
  calc 10 ^ t.length = 1 * 10 ^ t.length := by ring
    _ ≤ (c.toNat - 48) * 10 ^ t.length := Nat.mul_le_mul_right _ h1
    _ ≤ decVal (c :: t) := by
        simpa [decVal, List.foldl_cons] using decVal_foldl_ge t (c.toNat - 48)

theorem digit_len_le {l : List Char} (hd : ∀ c ∈ l, isDig c = true)
    (h0 : l = ['0'] ∨ l.head? ≠ some '0') (hb : decVal l ≤ maxSafe) : l.length ≤ 16 := by
  rcases h0 with e | h0
  · subst e; simp
  · cases l with
    | nil => simp
    | cons c t =>
      have hne : c ≠ '0' := fun e => h0 (by rw [e]; rfl)
      have hlow : 10 ^ t.length ≤ decVal (c :: t) := decVal_lower (hd c (by simp)) hne
      have h16 : (10 : Nat) ^ t.length < 10 ^ 16 :=
        lt_of_le_of_lt (le_trans hlow hb) (by norm_num [maxSafe])
      have := (Nat.pow_lt_pow_iff_right (by norm_num : (1 : Nat) < 10)).1 h16
      simp only [List.length_cons]
      omega

end ListMachinery

/-! ### Stability of the range-query sort -/

section SortStability

/-- "Has normalized version `v`" — the equivalence classes of the sort
comparator. -/
def keyIs (v : SemV) (r : GitHubRelease) : Bool :=
  decide (extractVersion r.tag_name = some v)

theorem releaseCmp_eq_gt_of_not_le {a b : GitHubRelease} (h : ¬ releaseLE a b) :
    releaseCmp a b = .gt := not_not.1 h

theorem releaseCmp_eq_of_key_eq {a b : GitHubRelease}
    (h : extractVersion a.tag_name = extractVersion b.tag_name) : releaseCmp a b = .eq := by
  unfold releaseCmp
  rw [h]
  exact cmpRefl optCompare _

theorem filter_orderedInsert_keyIs_pos {v : SemV} {a : GitHubRelease}
    (l : List GitHubRelease) (ha : extractVersion a.tag_name = some v) :
    (List.orderedInsert releaseLE a l).filter (keyIs v) = a :: l.filter (keyIs v) := by
  induction l with
  | nil => simp [List.orderedInsert, keyIs, ha]
  | cons b t ih =>
    by_cases hle : releaseLE a b
    · simp [List.orderedInsert, hle, List.filter_cons, keyIs, ha]
    · have hgt : releaseCmp a b = .gt := releaseCmp_eq_gt_of_not_le hle
      have hbk : keyIs v b = false := by
        simp only [keyIs, decide_eq_false_iff_not]
        intro e
        have : releaseCmp a b = .eq := releaseCmp_eq_of_key_eq (by rw [ha, e])
        rw [this] at hgt
        exact Ordering.noConfusion hgt
      simp [List.orderedInsert, hle, List.filter_cons, hbk, ih]

theorem filter_orderedInsert_keyIs_neg {v : SemV} {a : GitHubRelease}
    (l : List GitHubRelease) (ha : ¬ extractVersion a.tag_name = some v) :
    (List.orderedInsert releaseLE a l).filter (keyIs v) = l.filter (keyIs v) := by
  induction l with
  | nil => simp [List.orderedInsert, keyIs, ha]
  | cons b t ih =>
    by_cases hle : releaseLE a b
    · simp [List.orderedInsert, hle, List.filter_cons, keyIs, ha]
    · simp [List.orderedInsert, hle, List.filter_cons, ih]

theorem insertionSort_filter_keyIs (v : SemV) :
    ∀ l : List GitHubRelease,
      (List.insertionSort releaseLE l).filter (keyIs v) = l.filter (keyIs v)
  | [] => rfl
  | a :: t => by
    rw [List.insertionSort]
    by_cases ha : extractVersion a.tag_name = some v
    · rw [filter_orderedInsert_keyIs_pos _ ha, insertionSort_filter_keyIs v t,
        List.filter_cons, if_pos (by simp [keyIs, ha])]
    · rw [filter_orderedInsert_keyIs_neg _ ha, insertionSort_filter_keyIs v t,
        List.filter_cons, if_neg (by simp [keyIs, ha])]

end SortStability

/-! ### Extraction of well-formed dotted triples -/

section TripleExtraction

/-- A main-version component as the FULL regex accepts it: nonempty
digits, no leading zero, value within `MAX_SAFE_INTEGER`. -/
def validNumComp (d : List Char) : Prop :=
  (∀ c ∈ d, isDig c = true) ∧ d ≠ [] ∧ (d = ['0'] ∨ d.head? ≠ some '0') ∧
    decVal d ≤ maxSafe

instance : DecidablePred validNumComp := fun d => by
  unfold validNumComp; infer_instance

theorem parseNumIdent_of_valid {d : List Char} (h : validNumComp d) :
    parseNumIdent d = some (decVal d) := by
  obtain ⟨hall, hne, h0, hb⟩ := h
  unfold parseNumIdent
  rw [if_neg (by simp [List.isEmpty_iff, hne]),
    if_neg (by simp [List.all_eq_true]; exact hall),
    if_neg (by
      simp only [Bool.not_eq_true', Bool.or_eq_false_iff, decide_eq_false_iff_not,
        bne_eq_false_iff_eq]
      rintro ⟨hA, hB⟩
      rcases h0 with e | hh
      · exact hA e
      · exact hh hB),
    if_neg (by omega)]

theorem dig_not_dot {c : Char} (h : isDig c = true) : c ≠ '.' :=
  isDig_ne h (by decide)

theorem dig_not_plus {c : Char} (h : isDig c = true) : c ≠ '+' :=
  isDig_ne h (by decide)

theorem dig_not_dash {c : Char} (h : isDig c = true) : c ≠ '-' :=
  isDig_ne h (by decide)

theorem dig_not_v {c : Char} (h : isDig c = true) : c ≠ 'v' :=
  isDig_ne h (by decide)

theorem dig_not_at {c : Char} (h : isDig c = true) : c ≠ '@' :=
  isDig_ne h (by decide)

theorem dig_not_eqs {c : Char} (h : isDig c = true) : c ≠ '=' :=
  isDig_ne h (by decide)

/-- Every character of a dotted digit triple is a digit or the dot. -/
theorem triple_chars {d1 d2 d3 : List Char}
    (h1 : ∀ c ∈ d1, isDig c = true) (h2 : ∀ c ∈ d2, isDig c = true)
    (h3 : ∀ c ∈ d3, isDig c = true) :
    ∀ c ∈ d1 ++ '.' :: (d2 ++ '.' :: d3), isDig c = true ∨ c = '.' := by
  intro c hc
  simp only [List.mem_append, List.mem_cons] at hc
  rcases hc with hc | hc | hc
  · exact Or.inl (h1 c hc)
  · exact Or.inr hc
  · rcases hc with hc | hc | hc
    · exact Or.inl (h2 c hc)
    · exact Or.inr hc
    · exact Or.inl (h3 c hc)

theorem splitDots_triple {d1 d2 d3 : List Char}
    (h1 : ∀ c ∈ d1, isDig c = true) (h2 : ∀ c ∈ d2, isDig c = true)
    (h3 : ∀ c ∈ d3, isDig c = true) :
    splitDots (d1 ++ '.' :: (d2 ++ '.' :: d3)) = [d1, d2, d3] := by
  rw [splitDots_append (fun c hc => dig_not_dot (h1 c hc)),
    splitDots_append (fun c hc => dig_not_dot (h2 c hc)),
    splitDots_no_dot (fun c hc => dig_not_dot (h3 c hc))]

theorem parseStrict_triple {d1 d2 d3 : List Char}
    (v1 : validNumComp d1) (v2 : validNumComp d2) (v3 : validNumComp d3) :
    parseStrict (d1 ++ '.' :: (d2 ++ '.' :: d3)) =
      some ⟨decVal d1, decVal d2, decVal d3, []⟩ := by
  obtain ⟨h1, h1n, h10, h1b⟩ := v1
  obtain ⟨h2, h2n, h20, h2b⟩ := v2
  obtain ⟨h3, h3n, h30, h3b⟩ := v3
  set core := d1 ++ '.' :: (d2 ++ '.' :: d3) with hcore
  have hchars := triple_chars h1 h2 h3
  have hws : ∀ c ∈ core, isJsWs c = false := by
    intro c hc
    rcases hchars c hc with h | h
    · exact isJsWs_false_of_isDig h
    · rw [h]; decide
  have htrim : trimChars core = core := trimChars_of_no_ws hws
  obtain ⟨c0, t0, hd1⟩ := List.exists_cons_of_ne_nil h1n
  have hc0 : isDig c0 = true := h1 c0 (by rw [hd1]; simp)
  have hlen : ¬ core.length > 256 := by
    have l1 : d1.length ≤ 16 := digit_len_le h1 h10 h1b
    have l2 : d2.length ≤ 16 := digit_len_le h2 h20 h2b
    have l3 : d3.length ≤ 16 := digit_len_le h3 h30 h3b
    simp only [hcore, List.length_append, List.length_cons]
    omega
  have hheadv : ¬ core.head? = some 'v' := by
    rw [hcore, hd1]
    simp only [List.cons_append, List.head?_cons, Option.some_inj]
    exact dig_not_v hc0
  have hplus : splitFirst '+' core = (core, none) :=
    splitFirst_of_forall_ne (by
      intro c hc
      rcases hchars c hc with h | h
      · exact dig_not_plus h
      · rw [h]; decide)
  have hminus : splitFirst '-' core = (core, none) :=
    splitFirst_of_forall_ne (by
      intro c hc
      rcases hchars c hc with h | h
      · exact dig_not_dash h
      · rw [h]; decide)
  have hdots : splitDots core = [d1, d2, d3] := splitDots_triple h1 h2 h3
  unfold parseStrict
  rw [if_neg hlen]
  simp only [htrim, if_neg hheadv, hplus, hminus, hdots,
    parseNumIdent_of_valid ⟨h1, h1n, h10, h1b⟩,
    parseNumIdent_of_valid ⟨h2, h2n, h20, h2b⟩,
    parseNumIdent_of_valid ⟨h3, h3n, h30, h3b⟩, Bool.not_true, Bool.false_eq_true,
    if_false]

theorem semverClean_triple {d1 d2 d3 : List Char}
    (v1 : validNumComp d1) (v2 : validNumComp d2) (v3 : validNumComp d3) :
    semverClean (String.mk (d1 ++ '.' :: (d2 ++ '.' :: d3))) =
      some ⟨decVal d1, decVal d2, decVal d3, []⟩ := by
  have h1 := v1.1
  have h1n := v1.2.1
  have hchars := triple_chars h1 v2.1 v3.1
  have hws : ∀ c ∈ d1 ++ '.' :: (d2 ++ '.' :: d3), isJsWs c = false := by
    intro c hc
    rcases hchars c hc with h | h
    · exact isJsWs_false_of_isDig h
    · rw [h]; decide
  obtain ⟨c0, t0, hd1⟩ := List.exists_cons_of_ne_nil h1n
  have hc0 : isDig c0 = true := h1 c0 (by rw [hd1]; simp)
  unfold semverClean
  rw [show (String.mk (d1 ++ '.' :: (d2 ++ '.' :: d3))).data
        = d1 ++ '.' :: (d2 ++ '.' :: d3) from rfl,
    trimChars_of_no_ws hws,
    dropWhile_head_false (by
      intro c hc
      rw [hd1] at hc
      simp only [List.cons_append, List.head?_cons, Option.some_inj] at hc
      subst hc
      simp only [Bool.or_eq_false_iff, decide_eq_false_iff_not]
      exact ⟨dig_not_eqs hc0, dig_not_v hc0⟩)]
  exact parseStrict_triple v1 v2 v3

theorem leadTriple_triple_suffix {d1 d2 d3 s : List Char}
    (h1 : ∀ c ∈ d1, isDig c = true) (h1n : d1 ≠ [])
    (h2 : ∀ c ∈ d2, isDig c = true) (h2n : d2 ≠ [])
    (h3 : ∀ c ∈ d3, isDig c = true) (h3n : d3 ≠ [])
    (hs : ∀ c, s.head? = some c → isDig c = false) :
    leadTriple (d1 ++ '.' :: (d2 ++ '.' :: (d3 ++ s))) =
      some (d1 ++ '.' :: (d2 ++ '.' :: d3)) := by
  have hdot : isDig '.' = false := by decide
  have htake1 : (d1 ++ '.' :: (d2 ++ '.' :: (d3 ++ s))).takeWhile isDig = d1 := by
    rw [takeWhile_append_all _ h1, List.takeWhile_cons, hdot]
    simp
  have hdrop1 : (d1 ++ '.' :: (d2 ++ '.' :: (d3 ++ s))).dropWhile isDig
      = '.' :: (d2 ++ '.' :: (d3 ++ s)) := by
    rw [dropWhile_append_all _ h1, List.dropWhile_cons, hdot]
    simp
  have htake2 : (d2 ++ '.' :: (d3 ++ s)).takeWhile isDig = d2 := by
    rw [takeWhile_append_all _ h2, List.takeWhile_cons, hdot]
    simp
  have hdrop2 : (d2 ++ '.' :: (d3 ++ s)).dropWhile isDig = '.' :: (d3 ++ s) := by
    rw [dropWhile_append_all _ h2, List.dropWhile_cons, hdot]
    simp
  have htake3 : (d3 ++ s).takeWhile isDig = d3 := by
    rw [takeWhile_append_all _ h3, takeWhile_head_false hs]
    simp
  have e1 : d1.isEmpty = false := by simp [List.isEmpty_iff, h1n]
  have e2 : d2.isEmpty = false := by simp [List.isEmpty_iff, h2n]
  have e3 : d3.isEmpty = false := by simp [List.isEmpty_iff, h3n]
  unfold leadTriple
  simp only [htake1, hdrop1, htake2, hdrop2, htake3, List.head?_cons, List.tail_cons]
  simp [e1, e2, e3, List.append_assoc]

theorem matchTrailingAt_of_no_at {s : List Char} (h : ∀ c ∈ s, c ≠ '@') :
    matchTrailingAt s = none := by
  unfold matchTrailingAt
  rw [takeWhile_all_eq (by
    intro c hc
    simpa using h c (List.mem_reverse.1 hc))]
  simp

theorem matchTrailingAt_at_triple {d1 d2 d3 : List Char}
    (h1 : ∀ c ∈ d1, isDig c = true) (h1n : d1 ≠ [])
    (h2 : ∀ c ∈ d2, isDig c = true) (h2n : d2 ≠ [])
    (h3 : ∀ c ∈ d3, isDig c = true) (h3n : d3 ≠ []) :
    matchTrailingAt ('@' :: (d1 ++ '.' :: (d2 ++ '.' :: d3)))
      = some (d1 ++ '.' :: (d2 ++ '.' :: d3)) := by
  set core := d1 ++ '.' :: (d2 ++ '.' :: d3) with hcore
  have hnat : ∀ c ∈ core.reverse, (decide ¬(c = '@')) = true := by
    intro c hc
    rcases triple_chars h1 h2 h3 c (List.mem_reverse.1 hc) with h | h
    · simpa using dig_not_at h
    · rw [h]; decide
  have hrev : ('@' :: core).reverse.takeWhile (fun c => c ≠ '@') = core.reverse := by
    rw [List.reverse_cons, takeWhile_append_all _ hnat]
    simp [List.takeWhile_cons]
  unfold matchTrailingAt
  rw [hrev]
  rw [if_neg (by simp)]
  rw [List.reverse_reverse]
  rw [if_pos (by
    rw [hcore, splitDots_triple h1 h2 h3]
    simp [List.isEmpty_iff, h1n, h2n, h3n, List.all_eq_true]
    exact ⟨⟨h1, h2⟩, h3⟩)]

theorem matchLeadingTriple_of_digit_head {s : List Char} {c : Char}
    (hh : s.head? = some c) (hc : isDig c = true) : matchLeadingTriple s = leadTriple s := by
  unfold matchLeadingTriple
  rw [if_neg (by rw [hh]; simpa using dig_not_v hc)]

theorem matchLeadingTriple_v_cons (s : List Char) :
    matchLeadingTriple ('v' :: s) = leadTriple s := by
  simp [matchLeadingTriple]

theorem extractVersion_mk_trailing {l cap : List Char}
    (h : matchTrailingAt l = some cap) :
    extractVersion (String.mk l) = semverClean (String.mk cap) := by
  unfold extractVersion
  rw [show (String.mk l).data = l from rfl, h]

theorem extractVersion_mk_leading {l cap : List Char}
    (h0 : matchTrailingAt l = none) (h : matchLeadingTriple l = some cap) :
    extractVersion (String.mk l) = semverClean (String.mk cap) := by
  unfold extractVersion
  rw [show (String.mk l).data = l from rfl, h0, h]

theorem extractVersion_triple_suffix {d1 d2 d3 s : List Char}
    (v1 : validNumComp d1) (v2 : validNumComp d2) (v3 : validNumComp d3)
    (hs : ∀ c, s.head? = some c → isDig c = false)
    (hna : matchTrailingAt (d1 ++ '.' :: (d2 ++ '.' :: (d3 ++ s))) = none) :
    extractVersion (String.mk (d1 ++ '.' :: (d2 ++ '.' :: (d3 ++ s))))
      = some ⟨decVal d1, decVal d2, decVal d3, []⟩ := by
  obtain ⟨c0, t0, hd1⟩ := List.exists_cons_of_ne_nil v1.2.1
  have hc0 : isDig c0 = true := v1.1 c0 (by rw [hd1]; simp)
  have hhead : (d1 ++ '.' :: (d2 ++ '.' :: (d3 ++ s))).head? = some c0 := by
    rw [hd1]; simp
  rw [extractVersion_mk_leading hna
    (by rw [matchLeadingTriple_of_digit_head hhead hc0,
      leadTriple_triple_suffix v1.1 v1.2.1 v2.1 v2.2.1 v3.1 v3.2.1 hs])]
  exact semverClean_triple v1 v2 v3

theorem extractVersion_v_triple_suffix {d1 d2 d3 s : List Char}
    (v1 : validNumComp d1) (v2 : validNumComp d2) (v3 : validNumComp d3)
    (hs : ∀ c, s.head? = some c → isDig c = false)
    (hna : matchTrailingAt ('v' :: (d1 ++ '.' :: (d2 ++ '.' :: (d3 ++ s)))) = none) :
    extractVersion (String.mk ('v' :: (d1 ++ '.' :: (d2 ++ '.' :: (d3 ++ s)))))
      = some ⟨decVal d1, decVal d2, decVal d3, []⟩ := by
  rw [extractVersion_mk_leading hna
    (by rw [matchLeadingTriple_v_cons,
      leadTriple_triple_suffix v1.1 v1.2.1 v2.1 v2.2.1 v3.1 v3.2.1 hs])]
  exact semverClean_triple v1 v2 v3

theorem extractVersion_at_triple {d1 d2 d3 : List Char}
    (v1 : validNumComp d1) (v2 : validNumComp d2) (v3 : validNumComp d3) :
    extractVersion (String.mk ('@' :: (d1 ++ '.' :: (d2 ++ '.' :: d3))))
      = some ⟨decVal d1, decVal d2, decVal d3, []⟩ := by
  rw [extractVersion_mk_trailing
    (matchTrailingAt_at_triple v1.1 v1.2.1 v2.1 v2.2.1 v3.1 v3.2.1)]
  exact semverClean_triple v1 v2 v3

theorem no_at_of_triple {d1 d2 d3 : List Char}
    (h1 : ∀ c ∈ d1, isDig c = true) (h2 : ∀ c ∈ d2, isDig c = true)
    (h3 : ∀ c ∈ d3, isDig c = true) :
    ∀ c ∈ d1 ++ '.' :: (d2 ++ '.' :: d3), c ≠ '@' := by
  intro c hc
  rcases triple_chars h1 h2 h3 c hc with h | h
  · exact dig_not_at h
  · rw [h]; decide

end TripleExtraction

/-! ### Every extracted version is a valid clean semver -/

section WellFormed

/-- Well-formedness of a stored prerelease identifier: numbers are below
`MAX_SAFE_INTEGER`, strings are nonempty identifier-character runs. -/
def wfPreId : PreId → Prop
  | .num n => n < maxSafe
  | .str s => s.data ≠ [] ∧ s.data.all isIdChar = true

/-- Well-formedness of a parsed version: all components within the
`MAX_SAFE_INTEGER` bounds and the prerelease identifiers valid. -/
def wfSemV (v : SemV) : Prop :=
  v.major ≤ maxSafe ∧ v.minor ≤ maxSafe ∧ v.patch ≤ maxSafe ∧ ∀ id ∈ v.pre, wfPreId id

theorem isIdChar_of_isDig {c : Char} (h : isDig c = true) : isIdChar c = true := by
  obtain ⟨h1, h2⟩ := isDig_bounds h
  simp [isIdChar, Char.isAlphanum, Char.isDigit]
  exact Or.inl (Or.inr ⟨h1, h2⟩)

theorem parsePreId_wf {l : List Char} {id : PreId} (h : parsePreId l = some id) :
    wfPreId id := by
  have hne : l ≠ [] := by
    intro e
    subst e
    simp [parsePreId] at h
  unfold parsePreId at h
  rw [if_neg (by simp [List.isEmpty_iff, hne])] at h
  by_cases hdig : l.all isDig = true
  · rw [if_pos hdig] at h
    by_cases h0 : (decide (l = ['0']) || l.head? != some '0') = true
    · rw [if_pos h0, Option.some_inj] at h
      subst h
      split
      · rename_i hlt
        exact hlt
      · refine ⟨hne, ?_⟩
        rw [List.all_eq_true]
        intro c hc
        exact isIdChar_of_isDig (List.all_eq_true.1 hdig c hc)
    · rw [if_neg h0] at h
      exact Option.noConfusion h
  · rw [if_neg hdig] at h
    by_cases hall : l.all isIdChar = true
    · rw [if_pos hall, Option.some_inj] at h
      subst h
      exact ⟨hne, hall⟩
    · rw [if_neg hall] at h
      exact Option.noConfusion h

theorem mapM_parsePreId_wf :
    ∀ {xs : List (List Char)} {ids : List PreId},
      xs.mapM parsePreId = some ids → ∀ id ∈ ids, wfPreId id := by
  intro xs
  induction xs with
  | nil =>
    intro ids h
    simp only [List.mapM_nil, pure, Option.some_inj] at h
    subst h
    intro id hid
    exact absurd hid (by simp)
  | cons x t ih =>
    intro ids h
    rw [List.mapM_cons] at h
    cases hx : parsePreId x with
    | none => rw [hx] at h; exact Option.noConfusion h
    | some i =>
      rw [hx] at h
      cases ht : t.mapM parsePreId with
      | none => rw [ht] at h; exact Option.noConfusion h
      | some is =>
        rw [ht] at h
        simp only [Option.pure_def, Option.bind_eq_bind, Option.some_bind,
          Option.some_inj] at h
        subst h
        intro id hid
        rcases List.mem_cons.1 hid with e | hm
        · subst e; exact parsePreId_wf hx
        · exact ih ht id hm

theorem parseNumIdent_le {l : List Char} {n : Nat} (h : parseNumIdent l = some n) :
    n ≤ maxSafe := by
  unfold parseNumIdent at h
  split at h
  · exact Option.noConfusion h
  · split at h
    · exact Option.noConfusion h
    · split at h
      · exact Option.noConfusion h
      · split at h
        · exact Option.noConfusion h
        · rename_i hgt
          rw [Option.some_inj] at h
          subst h
          omega

theorem parseStrict_wf {l : List Char} {v : SemV} (h : parseStrict l = some v) :
    wfSemV v := by
  simp only [parseStrict] at h
  repeat' split at h
  all_goals first
    | exact Option.noConfusion h
    | (rw [Option.some_inj] at h
       subst h
       refine ⟨parseNumIdent_le (by assumption), parseNumIdent_le (by assumption),
         parseNumIdent_le (by assumption), ?_⟩
       intro id hid
       first
         | exact absurd hid (List.not_mem_nil id)
         | exact mapM_parsePreId_wf (by assumption) id hid)

theorem semverClean_wf {s : String} {v : SemV} (h : semverClean s = some v) : wfSemV v :=
  parseStrict_wf h

theorem extractVersion_wf {s : String} {v : SemV} (h : extractVersion s = some v) :
    wfSemV v := by
  unfold extractVersion at h
  split at h
  · exact semverClean_wf h
  · split at h
    · exact semverClean_wf h
    · exact semverClean_wf h

end WellFormed

/-! ### Pagination -/

section Pagination

/-- A full run of the loop that sees `m` full pages starting at `page`
and then a short (or empty) page: it requests exactly pages
`page … page+m`, in order, and returns the pages' contents concatenated
in page order. -/
theorem fetchAllReleasesGo_spec (pageFn : PageFn) :
    ∀ (m page fuel : Nat) (acc : List GitHubRelease),
      m + 1 ≤ fuel →
      (∀ i, i < m → ∃ l, pageFn (page + i) = .ok l ∧ l.length = perPage) →
      (∃ l, pageFn (page + m) = .ok l ∧ l.length < perPage) →
      fetchAllReleasesGo pageFn fuel page acc =
        (List.range' page (m + 1),
         some (.ok (acc ++ (List.range' page (m + 1)).flatMap
           (fun p => (pageFn p).toOption.getD [])))) := by
  intro m
  induction m with
  | zero =>
    intro page fuel acc hfuel _ hshort
    obtain ⟨l, hl, hlen⟩ := hshort
    rw [Nat.add_zero] at hl
    obtain ⟨f, rfl⟩ : ∃ f, fuel = f + 1 := ⟨fuel - 1, by omega⟩
    simp only [fetchAllReleasesGo, hl]
    by_cases h0 : l.length = 0
    · rw [if_pos h0]
      have : l = [] := List.length_eq_zero.1 h0
      subst this
      simp [List.range', hl, Except.toOption]
    · rw [if_neg h0, if_pos hlen]
      simp [List.range', hl, Except.toOption]
  | succ m ih =>
    intro page fuel acc hfuel hfull hshort
    obtain ⟨l0, hl0, hlen0⟩ := hfull 0 (Nat.succ_pos m)
    rw [Nat.add_zero] at hl0
    obtain ⟨f, rfl⟩ : ∃ f, fuel = f + 1 := ⟨fuel - 1, by omega⟩
    simp only [fetchAllReleasesGo, hl0]
    rw [if_neg (by rw [hlen0]; simp [perPage]), if_neg (by rw [hlen0]; simp)]
    have hrest := ih (page + 1) f (acc ++ l0) (by omega)
      (fun i hi => by
        have := hfull (i + 1) (by omega)
        rwa [show page + (i + 1) = page + 1 + i by omega] at this)
      (by
        obtain ⟨l, hl, hlen⟩ := hshort
        exact ⟨l, by rwa [show page + 1 + m = page + (m + 1) by omega], hlen⟩)
    rw [hrest]
    rw [show List.range' page (m + 1 + 1) = page :: List.range' (page + 1) (m + 1)
      from List.range'_succ page (m + 1) 1]
    simp [hl0, List.append_assoc, Except.toOption]

/-- A run of the loop that sees `m` full pages and then a failing page:
it requests exactly pages `page … page+m` and aborts with the single
wrapped error. -/
theorem fetchAllReleasesGo_error (pageFn : PageFn) :
    ∀ (m page fuel : Nat) (acc : List GitHubRelease) (msg : String),
      m + 1 ≤ fuel →
      (∀ i, i < m → ∃ l, pageFn (page + i) = .ok l ∧ l.length = perPage) →
      pageFn (page + m) = .error msg →
      fetchAllReleasesGo pageFn fuel page acc =
        (List.range' page (m + 1),
         some (.error ("Failed to fetch releases from GitHub: " ++ msg))) := by
  intro m
  induction m with
  | zero =>
    intro page fuel acc msg hfuel _ herr
    rw [Nat.add_zero] at herr
    obtain ⟨f, rfl⟩ : ∃ f, fuel = f + 1 := ⟨fuel - 1, by omega⟩
    simp only [fetchAllReleasesGo, herr]
    simp [List.range']
  | succ m ih =>
    intro page fuel acc msg hfuel hfull herr
    obtain ⟨l0, hl0, hlen0⟩ := hfull 0 (Nat.succ_pos m)
    rw [Nat.add_zero] at hl0
    obtain ⟨f, rfl⟩ : ∃ f, fuel = f + 1 := ⟨fuel - 1, by omega⟩
    simp only [fetchAllReleasesGo, hl0]
    rw [if_neg (by rw [hlen0]; simp [perPage]), if_neg (by rw [hlen0]; simp)]
    have hrest := ih (page + 1) f (acc ++ l0) msg (by omega)
      (fun i hi => by
        have := hfull (i + 1) (by omega)
        rwa [show page + (i + 1) = page + 1 + i by omega] at this)
      (by rwa [show page + 1 + m = page + (m + 1) by omega])
    rw [hrest]
    rw [show List.range' page (m + 1 + 1) = page :: List.range' (page + 1) (m + 1)
      from List.range'_succ page (m + 1) 1]

end Pagination

deriving instance DecidableEq for Except

/-! ### The claims -/

/-- The release tagged `v1.0.0` of the end-to-end example. -/
def relV100 : GitHubRelease := ⟨1, "v1.0.0", "", "", none, false⟩

/-- The release tagged `v1.2.0` of the end-to-end example. -/
def relV120 : GitHubRelease := ⟨2, "v1.2.0", "", "", none, false⟩

/-- The release tagged `v2.0.0-beta` of the end-to-end example. -/
def relV200beta : GitHubRelease := ⟨3, "v2.0.0-beta", "", "", none, true⟩

/-- The fetched collection of the end-to-end example. -/
def demoReleases : List GitHubRelease := [relV100, relV120, relV200beta]

/-- C1 counterexample: the exact lookup for `"2.0.0"` on the example
collection does NOT return the not-found result — the leading-triple rule
of `extractVersion` captures only `2.0.0` from `v2.0.0-beta`, discarding
the pre-release suffix, so the beta release compares equal to the target
and is returned. -/
theorem c1_counterexample :
    fetchReleaseByVersionCore demoReleases "2.0.0" none
        = Except.ok (some relV200beta)
      ∧ Except.ok (some relV200beta) ≠ (Except.ok none :
          Except String (Option GitHubRelease)) := by
  constructor
  · decide
  · intro h
    rw [Except.ok.injEq] at h
    exact Option.noConfusion h

/-- C1 amended: on the example collection, the range lookup from `1.0.0`
to `1.5.0` returns exactly the `v1.0.0` and `v1.2.0` releases in that
order, while the exact lookup for `2.0.0` returns the release tagged
`v2.0.0-beta` (not the not-found result), because `extractVersion` strips
the pre-release suffix and `2.0.0` equals `2.0.0` under semver
precedence. -/
theorem c1_amended :
    fetchReleasesBetweenVersionsCore demoReleases "1.0.0" "1.5.0" none
        = Except.ok [relV100, relV120]
      ∧ fetchReleaseByVersionCore demoReleases "2.0.0" none
        = Except.ok (some relV200beta)
      ∧ extractVersion "v2.0.0-beta" = some ⟨2, 0, 0, []⟩ := by
  refine ⟨?_, ?_, ?_⟩ <;> decide

/-- C8: the Package Scoper returns the anchored tag capture when the tag
matches, else the anchored name capture, else `"default"`; in particular
`@astrojs/vue@2.0.0` scopes to `@astrojs/vue`, a bare `v1.0.0` scopes to
`"default"`, and a multi-`@` tag `a@b@1.0.0` scopes to the first anchored
capture `a`. -/
theorem c8_package_scoper :
    (∀ r : GitHubRelease,
        (∀ p, matchPkgPat r.tag_name.data = some p →
          extractPackageName r = String.mk p)
      ∧ (matchPkgPat r.tag_name.data = none →
          ∀ q, matchPkgPat r.name.data = some q →
            extractPackageName r = String.mk q)
      ∧ (matchPkgPat r.tag_name.data = none → matchPkgPat r.name.data = none →
          extractPackageName r = "default"))
    ∧ extractPackageName ⟨1, "@astrojs/vue@2.0.0", "", "", none, false⟩ = "@astrojs/vue"
    ∧ extractPackageName ⟨1, "v1.0.0", "Release v1", "", none, false⟩ = "default"
    ∧ extractPackageName ⟨1, "a@b@1.0.0", "", "", none, false⟩ = "a" := by
  refine ⟨fun r => ⟨?_, ?_, ?_⟩, by decide, by decide, by decide⟩
  · intro p hp
    unfold extractPackageName
    rw [hp]
  · intro h0 q hq
    unfold extractPackageName
    rw [h0, hq]
  · intro h0 h1
    unfold extractPackageName
    rw [h0, h1]

/-- C8 witness: a release whose tag has no package pattern but whose name
is `pkg@2.0.0` scopes to `pkg`, by the second rule of the cascade. -/
theorem c8_witness :
    extractPackageName ⟨7, "tagonly", "pkg@2.0.0", "", none, false⟩
      = String.mk ['p', 'k', 'g'] :=
  (c8_package_scoper.1 ⟨7, "tagonly", "pkg@2.0.0", "", none, false⟩).2.1
    (by decide) ['p', 'k', 'g'] (by decide)

/-- The trivial collaborator serving a single empty page. -/
def emptyPageFn : PageFn := fun _ => .ok []

/-- C2 counterexample: with a collaborator whose first page is empty and
the unresolvable target `"not-a-version"`, the exact lookup does fail
with the invalid-input error naming the parameter — but its request trace
is `[1]`, not `[]`: a page WAS fetched before validation, refuting "no
page fetch from the remote collaborator is attempted for that query". -/
theorem c2_counterexample :
    fetchReleaseByVersionRun emptyPageFn 2 "not-a-version" none
        = ([1], some (.error "Invalid version format: not-a-version"))
      ∧ ([1] : List Nat) ≠ [] := by
  refine ⟨by decide, by decide⟩

/-- C2 amended: whenever the collection fetch succeeds, an exact or range
lookup whose version parameter is unresolvable fails with the
invalid-input error naming the offending parameter (`fromVersion` taking
precedence over `toVersion`) — but only after the release collection has
been fetched: the page requests of the fetch all happen before the
validation. -/
theorem c2_invalid_input :
    ∀ (pageFn : PageFn) (fuel : Nat) (tr : List Nat) (rs : List GitHubRelease)
      (version fromV toV : String) (pkg : Option String),
      fetchAllReleasesRun pageFn fuel = (tr, some (.ok rs)) →
      (extractVersion version = none →
        fetchReleaseByVersionRun pageFn fuel version pkg
          = (tr, some (.error ("Invalid version format: " ++ version))))
    ∧ (extractVersion fromV = none →
        fetchReleasesBetweenVersionsRun pageFn fuel fromV toV pkg
          = (tr, some (.error ("Invalid version format: " ++ fromV))))
    ∧ (∀ f, extractVersion fromV = some f → extractVersion toV = none →
        fetchReleasesBetweenVersionsRun pageFn fuel fromV toV pkg
          = (tr, some (.error ("Invalid version format: " ++ toV)))) := by
  intro pageFn fuel tr rs version fromV toV pkg hfetch
  refine ⟨?_, ?_, ?_⟩
  · intro hv
    unfold fetchReleaseByVersionRun
    rw [hfetch]
    unfold fetchReleaseByVersionCore
    rw [hv]
  · intro hv
    unfold fetchReleasesBetweenVersionsRun
    rw [hfetch]
    unfold fetchReleasesBetweenVersionsCore
    rw [hv]
  · intro f hf hv
    unfold fetchReleasesBetweenVersionsRun
    rw [hfetch]
    unfold fetchReleasesBetweenVersionsCore
    rw [hf, hv]

/-- C2 witness: a range lookup with unresolvable `fromVersion` `"x"` on
the empty-page collaborator reports the invalid-input error naming `"x"`
after requesting page 1. -/
theorem c2_witness :
    fetchReleasesBetweenVersionsRun emptyPageFn 2 "x" "1.0.0" none
      = ([1], some (.error "Invalid version format: x")) :=
  (c2_invalid_input emptyPageFn 2 [1] [] "x" "x" "1.0.0" none (by decide)).2.1
    (by decide)


theorem listReleasesCore_limit_pos (releases : List GitHubRelease)
    (pkg : Option String) (incPre : Bool) {l : Int} (hl : 0 < l) :
    listReleasesCore releases pkg incPre (some l)
      = (listReleasesCore releases pkg incPre none).take l.toNat := by
  simp only [listReleasesCore]
  rw [if_pos hl]

theorem listReleasesCore_limit_nonpos (releases : List GitHubRelease)
    (pkg : Option String) (incPre : Bool) {l : Int} (hl : l ≤ 0) :
    listReleasesCore releases pkg incPre (some l)
      = listReleasesCore releases pkg incPre none := by
  simp only [listReleasesCore]
  rw [if_neg (by omega)]

theorem listReleasesCore_subset_noLimit (releases : List GitHubRelease)
    (pkg : Option String) (incPre : Bool) (lim : Option Int) :
    ∀ r ∈ listReleasesCore releases pkg incPre lim,
      r ∈ listReleasesCore releases pkg incPre none := by
  intro r hr
  rcases lim with _ | l
  · exact hr
  · by_cases hl : (0 : Int) < l
    · rw [listReleasesCore_limit_pos _ _ _ hl] at hr
      exact (List.take_sublist _ _).subset hr
    · rwa [listReleasesCore_limit_nonpos _ _ _ (by omega)] at hr

theorem listReleasesCore_none_pre (releases : List GitHubRelease) (pkg : Option String) :
    listReleasesCore releases pkg false none
      = (listReleasesCore releases pkg true none).filter (fun r => !r.prerelease) := rfl

theorem listReleasesCore_true_none_pkg (releases : List GitHubRelease) {p : String}
    (hpne : p ≠ "") :
    listReleasesCore releases (some p) true none
      = releases.filter (fun r => extractPackageName r == p) := by
  have hb : (p == "") = false := by simpa using hpne
  simp [listReleasesCore, hb]

theorem listReleasesCore_mem_pkg {releases : List GitHubRelease} {p : String}
    {incPre : Bool} {lim : Option Int} {r : GitHubRelease} (hpne : p ≠ "")
    (hr : r ∈ listReleasesCore releases (some p) incPre lim) :
    extractPackageName r = p := by
  have h0 := listReleasesCore_subset_noLimit _ _ _ _ r hr
  have h1 : r ∈ listReleasesCore releases (some p) true none := by
    cases incPre with
    | true => exact h0
    | false =>
      rw [listReleasesCore_none_pre] at h0
      exact (List.mem_filter.1 h0).1
  rw [listReleasesCore_true_none_pkg _ hpne] at h1
  simpa using (List.mem_filter.1 h1).2

theorem listReleasesCore_mem_pre {releases : List GitHubRelease} {pkg : Option String}
    {lim : Option Int} {r : GitHubRelease}
    (hr : r ∈ listReleasesCore releases pkg false lim) : r.prerelease = false := by
  have h0 := listReleasesCore_subset_noLimit _ _ _ _ r hr
  rw [listReleasesCore_none_pre] at h0
  simpa using (List.mem_filter.1 h0).2

theorem listReleasesCore_sublist (releases : List GitHubRelease)
    (pkg : Option String) (incPre : Bool) (lim : Option Int) :
    (listReleasesCore releases pkg incPre lim).Sublist releases := by
  have s2 : (listReleasesCore releases pkg true none).Sublist releases := by
    rcases pkg with _ | p
    · exact List.Sublist.refl _
    · by_cases hp : p = ""
      · subst hp
        exact List.Sublist.refl _
      · rw [listReleasesCore_true_none_pkg _ hp]
        exact List.filter_sublist _
  have s1 : (listReleasesCore releases pkg incPre none).Sublist releases := by
    cases incPre with
    | true => exact s2
    | false =>
      rw [listReleasesCore_none_pre]
      exact (List.filter_sublist _).trans s2
  rcases lim with _ | l
  · exact s1
  · by_cases hl : (0 : Int) < l
    · rw [listReleasesCore_limit_pos _ _ _ hl]
      exact (List.take_sublist _ _).trans s1
    · rw [listReleasesCore_limit_nonpos _ _ _ (by omega)]
      exact s1

/-- C4: listing filters by package equality (for a truthy filter), drops
pre-releases unless they are explicitly included, preserves the
collection's original order (its output is a sublist of the input — it is
never re-sorted by version), truncates to the first `limit` entries
exactly when the limit is positive, and treats a zero or negative limit
as no limit. -/
theorem c4_listing :
    ∀ (releases : List GitHubRelease) (pkg : Option String) (incPre : Bool)
      (lim : Option Int),
      (∀ r ∈ listReleasesCore releases pkg incPre lim,
          (∀ p, pkg = some p → p ≠ "" → extractPackageName r = p)
        ∧ (incPre = false → r.prerelease = false))
    ∧ (listReleasesCore releases pkg incPre lim).Sublist releases
    ∧ (∀ l : Int, lim = some l → 0 < l →
        listReleasesCore releases pkg incPre lim
          = (listReleasesCore releases pkg incPre none).take l.toNat)
    ∧ (∀ l : Int, lim = some l → l ≤ 0 →
        listReleasesCore releases pkg incPre lim
          = listReleasesCore releases pkg incPre none) := by
  intro releases pkg incPre lim
  refine ⟨?_, listReleasesCore_sublist releases pkg incPre lim, ?_, ?_⟩
  · intro r hr
    constructor
    · intro p hp hpne
      subst hp
      exact listReleasesCore_mem_pkg hpne hr
    · intro hpre
      subst hpre
      exact listReleasesCore_mem_pre hr
  · intro l hl hpos
    subst hl
    exact listReleasesCore_limit_pos _ _ _ hpos
  · intro l hl hle
    subst hl
    exact listReleasesCore_limit_nonpos _ _ _ hle

/-- C4 witness: with a positive limit of 2, the listing on the example
collection equals the unlimited listing truncated to its first 2
entries. -/
theorem c4_witness :
    listReleasesCore demoReleases none false (some 2)
      = (listReleasesCore demoReleases none false none).take (2 : Int).toNat :=
  (c4_listing demoReleases none false (some 2)).2.2.1 2 rfl (by decide)

/-- C9: every release returned by an exact or range lookup has a
resolvable normalized version; unresolvable collection items never make a
lookup fail (resolvable query parameters always give a non-error result);
and an unfiltered listing returns the collection unchanged, so
unresolvable releases still appear there. -/
theorem c9_invariant :
    ∀ (releases : List GitHubRelease) (version fromV toV : String)
      (pkg : Option String),
      (∀ r, fetchReleaseByVersionCore releases version pkg = .ok (some r) →
        (extractVersion r.tag_name).isSome = true)
    ∧ (∀ out, fetchReleasesBetweenVersionsCore releases fromV toV pkg = .ok out →
        ∀ r ∈ out, (extractVersion r.tag_name).isSome = true)
    ∧ ((extractVersion version).isSome = true →
        ∀ e : String, fetchReleaseByVersionCore releases version pkg ≠ .error e)
    ∧ ((extractVersion fromV).isSome = true → (extractVersion toV).isSome = true →
        ∀ e : String, fetchReleasesBetweenVersionsCore releases fromV toV pkg ≠ .error e)
    ∧ listReleasesCore releases none true none = releases := by
  intro releases version fromV toV pkg
  refine ⟨?_, ?_, ?_, ?_, rfl⟩
  · intro r h
    unfold fetchReleaseByVersionCore at h
    cases hv : extractVersion version with
    | none =>
      rw [hv] at h
      exact Except.noConfusion h
    | some target =>
      rw [hv, Except.ok.injEq] at h
      have hfind := List.find?_some h
      unfold byVersionPred at hfind
      cases hx : extractVersion r.tag_name with
      | none => rw [hx] at hfind; simp at hfind
      | some v => simp [hx]
  · intro out h r hr
    unfold fetchReleasesBetweenVersionsCore at h
    cases hf : extractVersion fromV with
    | none =>
      rw [hf] at h
      exact Except.noConfusion h
    | some lo =>
      cases ht : extractVersion toV with
      | none =>
        rw [hf, ht] at h
        exact Except.noConfusion h
      | some hi =>
        rw [hf, ht, Except.ok.injEq] at h
        subst h
        have hmem : r ∈ releases.filter (betweenPred lo hi pkg) :=
          (List.mem_insertionSort releaseLE).1 hr
        have hpred := List.of_mem_filter hmem
        unfold betweenPred at hpred
        cases hx : extractVersion r.tag_name with
        | none => rw [hx] at hpred; simp at hpred
        | some v => simp [hx]
  · intro hv e
    obtain ⟨target, ht⟩ := Option.isSome_iff_exists.1 hv
    unfold fetchReleaseByVersionCore
    rw [ht]
    exact fun h => Except.noConfusion h
  · intro hf ht e
    obtain ⟨lo, hlo⟩ := Option.isSome_iff_exists.1 hf
    obtain ⟨hi, hhi⟩ := Option.isSome_iff_exists.1 ht
    unfold fetchReleasesBetweenVersionsCore
    rw [hlo, hhi]
    exact fun h => Except.noConfusion h

/-- C9 witness: the release returned by the exact lookup for `2.0.0` on
the example collection has a resolvable normalized version. -/
theorem c9_witness : (extractVersion relV200beta.tag_name).isSome = true :=
  (c9_invariant demoReleases "2.0.0" "1.0.0" "1.5.0" none).1 relV200beta (by decide)

/-- C3: for resolvable bounds `lo ≤ hi`, the range lookup succeeds, and
its output is a permutation of the releases passing the inclusive range
and package filter, is sorted ascending by normalized version, keeps
releases of equal normalized version in original collection order (its
restriction to each version class equals the filtered input's), and
contains every collection release whose version equals either bound (and
whose package matches). -/
theorem c3_range :
    ∀ (releases : List GitHubRelease) (fromV toV : String) (pkg : Option String)
      (lo hi : SemV),
      extractVersion fromV = some lo → extractVersion toV = some hi →
      semverCompare lo hi ≠ .gt →
      (∀ e : String, fetchReleasesBetweenVersionsCore releases fromV toV pkg ≠ .error e)
    ∧ ∀ out, fetchReleasesBetweenVersionsCore releases fromV toV pkg = .ok out →
        out.Perm (releases.filter (betweenPred lo hi pkg))
      ∧ List.Sorted releaseLE out
      ∧ (∀ v : SemV, out.filter (keyIs v)
          = (releases.filter (betweenPred lo hi pkg)).filter (keyIs v))
      ∧ (∀ r ∈ releases, extractVersion r.tag_name = some lo →
          pkgMatches pkg r = true → r ∈ out)
      ∧ (∀ r ∈ releases, extractVersion r.tag_name = some hi →
          pkgMatches pkg r = true → r ∈ out) := by
  intro releases fromV toV pkg lo hi hfrom hto hle
  unfold fetchReleasesBetweenVersionsCore
  rw [hfrom, hto]
  refine ⟨fun e h => Except.noConfusion h, ?_⟩
  intro out h
  rw [Except.ok.injEq] at h
  subst h
  have hlopred : ∀ r, extractVersion r.tag_name = some lo →
      pkgMatches pkg r = true → betweenPred lo hi pkg r = true := by
    intro r hx hpkg
    have h1 : semverCompare lo lo = .eq := cmpRefl semverCompare lo
    simp only [betweenPred, hx, hpkg, Bool.and_true]
    rw [h1]
    simp only [Bool.and_eq_true, Bool.not_eq_true']
    refine ⟨by decide, ?_⟩
    cases hc : semverCompare lo hi
    · rfl
    · rfl
    · exact absurd hc hle
  have hhipred : ∀ r, extractVersion r.tag_name = some hi →
      pkgMatches pkg r = true → betweenPred lo hi pkg r = true := by
    intro r hx hpkg
    have h1 : semverCompare hi hi = .eq := cmpRefl semverCompare hi
    have hlt : semverCompare hi lo ≠ .lt := (cmpNeGtIff semverCompare).1 hle
    simp only [betweenPred, hx, hpkg, Bool.and_true]
    rw [h1]
    simp only [Bool.and_eq_true, Bool.not_eq_true']
    refine ⟨?_, by decide⟩
    cases hc : semverCompare hi lo
    · exact absurd hc hlt
    · rfl
    · rfl
  refine ⟨List.perm_insertionSort _ _, List.sorted_insertionSort _ _,
    fun v => insertionSort_filter_keyIs v _, ?_, ?_⟩
  · intro r hr hx hpkg
    exact (List.mem_insertionSort releaseLE).2
      (List.mem_filter.2 ⟨hr, hlopred r hx hpkg⟩)
  · intro r hr hx hpkg
    exact (List.mem_insertionSort releaseLE).2
      (List.mem_filter.2 ⟨hr, hhipred r hx hpkg⟩)

/-- C3 witness: on the example collection with bounds `1.0.0 ≤ 1.5.0`,
the range lookup's output `[v1.0.0, v1.2.0]` is sorted ascending by
normalized version. -/
theorem c3_witness : List.Sorted releaseLE [relV100, relV120] :=
  ((c3_range demoReleases "1.0.0" "1.5.0" none ⟨1, 0, 0, []⟩ ⟨1, 5, 0, []⟩
    (by decide) (by decide) (by decide)).2 [relV100, relV120] (by decide)).2.1

/-- C5: any no-leading-zero digit triple within the `MAX_SAFE_INTEGER`
bound normalizes to the same canonical triple whether written bare, with
a leading `v`, or with a leading `@`; and every successful normalization
of any string whatsoever yields a well-formed clean semver value (the
function is total — failure is the `none` value, never an exception). -/
theorem c5_normalization :
    ∀ d1 d2 d3 : List Char,
      validNumComp d1 → validNumComp d2 → validNumComp d3 →
      (extractVersion (String.mk (d1 ++ '.' :: (d2 ++ '.' :: d3)))
          = some ⟨decVal d1, decVal d2, decVal d3, []⟩
        ∧ extractVersion (String.mk ('v' :: (d1 ++ '.' :: (d2 ++ '.' :: d3))))
          = some ⟨decVal d1, decVal d2, decVal d3, []⟩
        ∧ extractVersion (String.mk ('@' :: (d1 ++ '.' :: (d2 ++ '.' :: d3))))
          = some ⟨decVal d1, decVal d2, decVal d3, []⟩)
      ∧ ∀ (s : String) (v : SemV), extractVersion s = some v → wfSemV v := by
  intro d1 d2 d3 v1 v2 v3
  have hnil : (d3 ++ ([] : List Char)) = d3 := List.append_nil d3
  have hs : ∀ c : Char, ([] : List Char).head? = some c → isDig c = false := by
    intro c hc
    exact absurd hc (by simp)
  refine ⟨⟨?_, ?_, ?_⟩, fun s v h => extractVersion_wf h⟩
  · have hna : matchTrailingAt (d1 ++ '.' :: (d2 ++ '.' :: (d3 ++ []))) = none := by
      rw [hnil]
      exact matchTrailingAt_of_no_at (no_at_of_triple v1.1 v2.1 v3.1)
    have h := extractVersion_triple_suffix v1 v2 v3 hs hna
    rwa [hnil] at h
  · have hna : matchTrailingAt ('v' :: (d1 ++ '.' :: (d2 ++ '.' :: (d3 ++ [])))) = none := by
      rw [hnil]
      refine matchTrailingAt_of_no_at ?_
      intro c hc
      rcases List.mem_cons.1 hc with e | hm
      · rw [e]; decide
      · exact no_at_of_triple v1.1 v2.1 v3.1 c hm
    have h := extractVersion_v_triple_suffix v1 v2 v3 hs hna
    rwa [hnil] at h
  · exact extractVersion_at_triple v1 v2 v3

/-- C5 witness: the triple `1.2.3` written bare normalizes to its
canonical value. -/
theorem c5_witness :
    extractVersion (String.mk (['1'] ++ '.' :: (['2'] ++ '.' :: ['3'])))
      = some ⟨decVal ['1'], decVal ['2'], decVal ['3'], []⟩ :=
  ((c5_normalization ['1'] ['2'] ['3'] (by decide) (by decide) (by decide)).1).1

/-- C10 counterexample: the tag `v1.2.3@9.9.9` begins with `v` + triple
`1.2.3` followed by the suffix `@9.9.9`, yet `extractVersion` returns
`9.9.9`, not the leading triple: the trailing-`@` rule has priority over
the leading-triple rule, refuting "any further suffix". -/
theorem c10_counterexample :
    extractVersion "v1.2.3@9.9.9" = some ⟨9, 9, 9, []⟩
      ∧ some (⟨9, 9, 9, []⟩ : SemV) ≠ some (⟨1, 2, 3, []⟩ : SemV) :=
  ⟨by decide, by decide⟩

/-- C10 amended: for a tag made of an optional `v`, a valid digit triple,
and a suffix that neither starts with a digit (which would extend the
greedy third component) nor makes the whole tag end in `@`+triple (which
the higher-priority trailing-`@` rule would capture instead),
`extractVersion` returns the bare leading triple with the suffix
discarded and no pre-release identifiers; consequently any two such tags
sharing the leading triple normalize to equal versions. -/
theorem c10_leading_triple :
    ∀ (useV : Bool) (d1 d2 d3 s : List Char),
      validNumComp d1 → validNumComp d2 → validNumComp d3 →
      (∀ c, s.head? = some c → isDig c = false) →
      matchTrailingAt ((if useV then ['v'] else [])
        ++ (d1 ++ '.' :: (d2 ++ '.' :: (d3 ++ s)))) = none →
      extractVersion (String.mk ((if useV then ['v'] else [])
        ++ (d1 ++ '.' :: (d2 ++ '.' :: (d3 ++ s)))))
        = some ⟨decVal d1, decVal d2, decVal d3, []⟩ := by
  intro useV d1 d2 d3 s v1 v2 v3 hs hna
  cases useV with
  | false => simpa using extractVersion_triple_suffix v1 v2 v3 hs (by simpa using hna)
  | true => simpa using extractVersion_v_triple_suffix v1 v2 v3 hs (by simpa using hna)

/-- C10 witness: `v1.2.3-rc` normalizes to the bare triple `1.2.3` with
the `-rc` suffix discarded. -/
theorem c10_witness :
    extractVersion (String.mk ((if true then ['v'] else [])
      ++ (['1'] ++ '.' :: (['2'] ++ '.' :: (['3'] ++ ['-', 'r', 'c'])))))
      = some ⟨decVal ['1'], decVal ['2'], decVal ['3'], []⟩ :=
  c10_leading_triple true ['1'] ['2'] ['3'] ['-', 'r', 'c'] (by decide) (by decide)
    (by decide)
    (by
      intro c hc
      simp only [List.head?_cons, Option.some_inj] at hc
      subst hc
      decide)
    (by decide)

theorem range'_chain_succ : ∀ (n s : Nat),
    List.Chain' (fun a b => b = a + 1) (List.range' s n)
  | 0, _ => by simp
  | 1, s => by simp [List.range']
  | n + 2, s => by
    rw [List.range'_succ, List.range'_succ]
    rw [List.chain'_cons]
    refine ⟨rfl, ?_⟩
    rw [← List.range'_succ]
    exact range'_chain_succ (n + 1) (s + 1)

theorem flatMap_pages_length (pageFn : PageFn) :
    ∀ (m s : Nat),
      (∀ i, i < m → ∃ l, pageFn (s + i) = .ok l ∧ l.length = perPage) →
      ((List.range' s m).flatMap (fun p => (pageFn p).toOption.getD [])).length
        = m * perPage := by
  intro m
  induction m with
  | zero => intro s _; simp
  | succ n ih =>
    intro s h
    obtain ⟨l, hl, hlen⟩ := h 0 (Nat.succ_pos n)
    rw [Nat.add_zero] at hl
    rw [List.range'_succ, List.flatMap_cons, List.length_append]
    rw [ih (s + 1) (fun i hi => by
      have := h (i + 1) (by omega)
      rwa [show s + (i + 1) = s + 1 + i by omega] at this)]
    rw [hl]
    simp only [Except.toOption, Option.getD_some]
    rw [hlen]
    ring

/-- C6: against a collaborator serving full pages (of exactly `perPage`
items) on pages `1 … pages` and a short page of `k < perPage` items on
page `pages + 1`, the fetch terminates with the pages' contents
concatenated in page order — `pages * perPage + k` releases — having
requested exactly pages `1 … pages + 1` in strictly sequential order and
never page `pages + 2`. -/
theorem c6_pagination :
    ∀ (pageFn : PageFn) (pages k fuel : Nat),
      k < perPage →
      (∀ p, 1 ≤ p → p ≤ pages → ∃ l, pageFn p = .ok l ∧ l.length = perPage) →
      (∃ l, pageFn (pages + 1) = .ok l ∧ l.length = k) →
      pages + 1 ≤ fuel →
      fetchAllReleasesRun pageFn fuel
        = (List.range' 1 (pages + 1),
           some (.ok ((List.range' 1 (pages + 1)).flatMap
             (fun p => (pageFn p).toOption.getD []))))
      ∧ ((List.range' 1 (pages + 1)).flatMap
           (fun p => (pageFn p).toOption.getD [])).length = pages * perPage + k
      ∧ pages + 2 ∉ List.range' 1 (pages + 1)
      ∧ List.Chain' (fun a b => b = a + 1) (List.range' 1 (pages + 1)) := by
  intro pageFn pages k fuel hk hfull hshort hfuel
  obtain ⟨lk, hlk, hlklen⟩ := hshort
  have hfull' : ∀ i, i < pages → ∃ l, pageFn (1 + i) = .ok l ∧ l.length = perPage :=
    fun i hi => hfull (1 + i) (by omega) (by omega)
  have hshort' : ∃ l, pageFn (1 + pages) = .ok l ∧ l.length < perPage :=
    ⟨lk, by rwa [Nat.add_comm], by omega⟩
  have hrun := fetchAllReleasesGo_spec pageFn pages 1 fuel [] hfuel hfull' hshort'
  refine ⟨?_, ?_, ?_, range'_chain_succ _ _⟩
  · unfold fetchAllReleasesRun
    rw [hrun]
    simp
  · rw [List.range'_concat, List.flatMap_append, List.length_append]
    rw [flatMap_pages_length pageFn pages 1 hfull']
    simp only [List.flatMap_cons, List.flatMap_nil, List.append_nil]
    rw [show 1 + 1 * pages = pages + 1 by ring, hlk]
    simp only [Except.toOption, Option.getD_some]
    omega
  · rw [List.mem_range'_1]
    omega

/-- A collaborator serving one short page, for the C6 witness. -/
def shortPageFn : PageFn := fun _ => .ok [relV100]

/-- C6 witness: with zero full pages and a short first page of one item,
the fetch requests exactly page 1 and returns that page's content. -/
theorem c6_witness :
    fetchAllReleasesRun shortPageFn 1
      = (List.range' 1 1,
         some (.ok ((List.range' 1 1).flatMap
           (fun p => (shortPageFn p).toOption.getD [])))) :=
  (c6_pagination shortPageFn 0 1 1 (by decide)
    (fun p h1 h2 => absurd (le_trans h1 h2) (by decide))
    ⟨[relV100], rfl, rfl⟩ (by decide)).1

/-- C7: when pages `1 … n` are full and page `n + 1` fails, the fetch
aborts with the single error wrapping the collaborator's message — no
release list is returned — after requesting exactly pages `1 … n + 1`:
the failed page is requested exactly once (no retry) and no later page is
ever requested. -/
theorem c7_fetch_failure :
    ∀ (pageFn : PageFn) (n fuel : Nat) (msg : String),
      (∀ i, i < n → ∃ l, pageFn (1 + i) = .ok l ∧ l.length = perPage) →
      pageFn (1 + n) = .error msg →
      n + 1 ≤ fuel →
      fetchAllReleasesRun pageFn fuel
        = (List.range' 1 (n + 1),
           some (.error ("Failed to fetch releases from GitHub: " ++ msg)))
      ∧ (List.range' 1 (n + 1)).count (1 + n) = 1
      ∧ (∀ p ∈ List.range' 1 (n + 1), p ≤ 1 + n) := by
  intro pageFn n fuel msg hfull herr hfuel
  have hrun := fetchAllReleasesGo_error pageFn n 1 fuel [] msg hfuel hfull herr
  refine ⟨hrun, ?_, ?_⟩
  · exact List.count_eq_one_of_mem (List.nodup_range' 1 (n + 1))
      (List.mem_range'_1.2 ⟨by omega, by omega⟩)
  · intro p hp
    rw [List.mem_range'_1] at hp
    omega

/-- A collaborator whose every page fails, for the C7 witness. -/
def failPageFn : PageFn := fun _ => .error "boom"

/-- C7 witness: a failure on the first page aborts the fetch immediately
with the wrapped message, after requesting only page 1. -/
theorem c7_witness :
    fetchAllReleasesRun failPageFn 1
      = (List.range' 1 (0 + 1),
         some (.error ("Failed to fetch releases from GitHub: " ++ "boom"))) :=
  (c7_fetch_failure failPageFn 0 1 "boom"
    (fun i hi => absurd hi (Nat.not_lt_zero i)) rfl (by decide)).1
